import Mathlib

/-!
Shallow embedding of the configurama v2 configuration-pool library.

A Go `map[string]string` is modelled as an association list
`List (String × String)` whose keys are unique (Go maps cannot hold
duplicate keys; the predicates `ParamsND` / `PoolND` below state that
invariant where a proof needs it).  A Go `map[string]map[string]string`
is a `List (String × List (String × String))`.  Map indexing `m[k]`
becomes `mapGet`, map assignment `m[k] = v` becomes `mapSet`.
Go's `error` results are modelled with `Except`.
-/

namespace Configurama

/-- Go type `Strategy uint8`; the constants below are the three named values. -/
abbrev Strategy := Nat

/-- Report strategy (`iota` = 0): report an error for parameters that already exist. -/
def Report : Strategy := 0

/-- Overwrite strategy (1): overwrite parameters for which new values exist. -/
def Overwrite : Strategy := 1

/-- Keep strategy (2): keep existing values for parameters that are given new values. -/
def Keep : Strategy := 2

/-- One section of configuration data: Go `map[string]string`. -/
abbrev Params := List (String × String)

/-- The whole pool content: Go `map[string]map[string]string`. -/
abbrev PoolMap := List (String × Params)

/-- Go map indexing `m[key]`: `some v` when the key is present (`ok = true`),
`none` when absent (`ok = false`). -/
def mapGet {α : Type} (key : String) : List (String × α) → Option α
  | [] => none
  | (k, v) :: rest => if k = key then some v else mapGet key rest

/-- Go map assignment `m[key] = val`: replaces the value when the key is
present, otherwise adds the binding. -/
def mapSet {α : Type} (m : List (String × α)) (key : String) (val : α) :
    List (String × α) :=
  match m with
  | [] => [(key, val)]
  | (k, v) :: rest => if k = key then (k, val) :: rest else (k, v) :: mapSet rest key val

/-- The section stored under `sec`, or the empty map when the section is absent
(Go indexing into a missing section yields the nil map). -/
def getSection (pool : PoolMap) (sec : String) : Params :=
  (mapGet sec pool).getD []

/-- Two-level indexing `pool[sec][key]` (Go lookup on a nil map is `ok = false`). -/
def lookup2 (pool : PoolMap) (sec key : String) : Option String :=
  mapGet key (getSection pool sec)

/-- The keys of an association list have no duplicates (invariant of a Go map). -/
def ParamsND (ps : Params) : Prop := (ps.map Prod.fst).Nodup

/-- Both map levels of a pool have duplicate-free keys. -/
def PoolND (pool : PoolMap) : Prop :=
  (pool.map Prod.fst).Nodup ∧ ∀ sp ∈ pool, ParamsND sp.2

instance : DecidablePred ParamsND := fun ps =>
  inferInstanceAs (Decidable ((ps.map Prod.fst).Nodup))

instance : DecidablePred PoolND := fun _pool =>
  inferInstanceAs (Decidable (_ ∧ _))

/-- Element-wise deep copy of one section (`for field, val := range params`);
on immutable Lean values the copy is the identity. -/
def copyParams (ps : Params) : Params := ps

/-- Element-wise deep copy of a whole pool (the copy loop at the top of `merge`);
on immutable Lean values the copy is the identity. -/
def copyPool (pool : PoolMap) : PoolMap := pool

instance {ε α : Type} [DecidableEq ε] [DecidableEq α] : DecidableEq (Except ε α) :=
  fun x y =>
    match x, y with
    | .error e, .error f => decidable_of_iff (e = f) (by simp)
    | .ok a, .ok b => decidable_of_iff (a = b) (by simp)
    | .error _, .ok _ => .isFalse fun h => Except.noConfusion h
    | .ok _, .error _ => .isFalse fun h => Except.noConfusion h

/-- The error built by `fmt.Errorf("section %q, key %q already exists", sec, key)`
in `merge` under the Report strategy. -/
structure MergeErr where
  sec : String
  key : String
deriving DecidableEq

/-- Inner loop of `merge` (`for key, val := range params` on a section that
already exists in `res`): each incoming key either extends the section or hits
an existing key, in which case the strategy decides (Report errors, Keep and
the `default` branch skip, Overwrite stores the new value). -/
def mergeKeys (sec : String) (resSec : Params) (entries : Params)
    (strategy : Strategy) : Except MergeErr Params :=
  match entries with
  | [] => .ok resSec
  | (key, val) :: rest =>
    match mapGet key resSec with
    | some _ =>
      if strategy = Report then .error ⟨sec, key⟩
      else if strategy = Keep then mergeKeys sec resSec rest strategy
      else if strategy = Overwrite then mergeKeys sec (mapSet resSec key val) rest strategy
      else mergeKeys sec resSec rest strategy
    | none => mergeKeys sec (mapSet resSec key val) rest strategy

/-- Outer loop of `merge` (`for sec, params := range second`): an incoming
section is merged key-by-key when it already exists in `res`, otherwise it is
copied in whole. -/
def mergeSections (res : PoolMap) (entries : PoolMap) (strategy : Strategy) :
    Except MergeErr PoolMap :=
  match entries with
  | [] => .ok res
  | (sec, params) :: rest =>
    match mapGet sec res with
    | some resSec =>
      match mergeKeys sec resSec params strategy with
      | .error e => .error e
      | .ok merged => mergeSections (mapSet res sec merged) rest strategy
    | none => mergeSections (mapSet res sec (copyParams params)) rest strategy

/-- The free function `merge(first, second, strategy)`: the two edge cases
return the other input unchanged, the general case copies `first` and folds
`second` into the copy. -/
def merge (first second : PoolMap) (strategy : Strategy) :
    Except MergeErr PoolMap :=
  if first.isEmpty then .ok second
  else if second.isEmpty then .ok first
  else mergeSections (copyPool first) second strategy

/-- The method `Pool.Merge` with the receiver state made explicit: on error the
early `return err` leaves `p.params` untouched, on success the result is
assigned to `p.params`.  Returns the Go pair (error, new pool state). -/
def poolMerge (p : PoolMap) (params : PoolMap) (strategy : Strategy) :
    Option MergeErr × PoolMap :=
  match merge p params strategy with
  | .error e => (some e, p)
  | .ok res => (none, res)

/-- Truth of the Go condition `!ok || (ok && secVal != first[sec][key])` for one
key/value pair of `first[sec]` against `second`. -/
def diffMismatch (second : PoolMap) (sec key val : String) : Bool :=
  match lookup2 second sec key with
  | none => true
  | some secVal => secVal != val

/-- Inner loop of `diff` (`for key, val := range params`): a mismatching pair is
recorded in `res[sec]`, which is (re)initialised to the empty section the first
time this happens (`gotSection` tracks that). -/
def diffKeys (second : PoolMap) (sec : String) (entries : Params)
    (res : PoolMap) (gotSection : Bool) : PoolMap :=
  match entries with
  | [] => res
  | (key, val) :: rest =>
    if diffMismatch second sec key val then
      let res1 := if gotSection then res else mapSet res sec []
      diffKeys second sec rest (mapSet res1 sec (mapSet (getSection res1 sec) key val)) true
    else diffKeys second sec rest res gotSection

/-- Outer loop of `diff` (`for sec, params := range first`): a section missing
from `second` is first copied in whole, then every pair is checked one by one. -/
def diffSections (second : PoolMap) (entries : PoolMap) (res : PoolMap) :
    PoolMap :=
  match entries with
  | [] => res
  | (sec, params) :: rest =>
    let res1 := if (mapGet sec second).isSome then res
                else mapSet res sec (copyParams params)
    diffSections second rest (diffKeys second sec params res1 false)

/-- The free function `diff(first, second)`: all sections, fields and values
present in `first` but not in `second`. -/
def diff (first second : PoolMap) : PoolMap :=
  diffSections second first []

/-- The method `p.Compare(pool)`: `diff(pool.params, p.params)` — the content of
the argument pool that is not already in the receiver. -/
def Compare (p pool : PoolMap) : PoolMap := diff pool p

/-- First-defined choice between two optional values; used to state how merged
pools look up values. -/
def firstSome {α : Type} (x y : Option α) : Option α :=
  match x with
  | some v => some v
  | none => y

/-- Checks that no section+key pair of `a` is present in `b`; used to state the
non-conflicting hypothesis of the associativity property. -/
def disjointPools (a b : PoolMap) : Bool :=
  a.all fun sp => sp.2.all fun kv => (lookup2 b sp.1 kv.1).isNone

/-- The method `p.Get(section, key)`: raw value and presence flag. -/
def poolGet (p : PoolMap) (sec key : String) : String × Bool :=
  match mapGet sec p with
  | none => ("", false)
  | some ps =>
    match mapGet key ps with
    | none => ("", false)
    | some v => (v, true)

/-- Result of `Pool.Raw()`.  In Go the method returns a map reference;
`aliased` records whether the returned reference is the pool's own internal
`p.params` map (so that writes through it mutate the pool) as opposed to a
fresh copy. -/
structure RawResult where
  contents : PoolMap
  aliased : Bool
deriving DecidableEq

/-- The method `Pool.Raw()` as implemented: it builds a deep copy `myPool`
of `p.params`, but the return statement is `return p.params`, handing the
caller the internal map itself (aliased), not the copy. -/
def poolRaw (p : PoolMap) : RawResult :=
  let _myPool := copyPool p
  { contents := p, aliased := true }

/-- Effect on the pool of the caller writing `raw[sec][key] = val` into the map
returned by `Raw()`: under Go reference semantics the write lands in the pool's
internal map exactly when the returned reference aliases it. -/
def writeThruRaw (p : PoolMap) (r : RawResult) (sec key val : String) : PoolMap :=
  if r.aliased then mapSet p sec (mapSet (getSection p sec) key val) else p

/-- Errors of the v2 package.  `ValidateFunc` may surface an arbitrary caller
error unwrapped; those are carried by the `custom` constructor. -/
inductive CError where
  | noKey (key : String)
  | regExpValidation (key : String)
  | enumValidation (key : String)
  | conversion (key value datatype : String)
  | noSection (name : String)
  | custom (msg : String)
deriving DecidableEq

/-- The internal `option` struct filled in by the functional options.  A Go
`*regexp.Regexp` is modelled by its matching function, a Go validation
function by a function returning `none` for success. -/
structure OptionRec where
  defaultValue : String := ""
  validateRegExp : Option (String → Bool) := none
  validateFunc : Option (String → String → Option CError) := none
  require : Bool := false

/-- The functional option type `Option func(*option)`. -/
abbrev COption := OptionRec → OptionRec

/-- The option constructor `Default(val)`. -/
def Default (val : String) : COption := fun o => { o with defaultValue := val }

/-- The option constructor `Require()`. -/
def Require : COption := fun o => { o with require := true }

/-- The option constructor `ValidateRegExp(regex)`, with the compiled regular
expression represented by its matcher. -/
def ValidateRegExp (matcher : String → Bool) : COption :=
  fun o => { o with validateRegExp := some matcher }

/-- The option constructor `ValidateFunc(f)`. -/
def ValidateFunc (f : String → String → Option CError) : COption :=
  fun o => { o with validateFunc := some f }

/-- The option constructor `ValidateEnum(values)`. -/
def ValidateEnum (values : List String) : COption :=
  fun o =>
    { o with
      validateFunc := some fun key value =>
        if values.isEmpty then none
        else if values.contains value then none
        else some (.enumValidation key) }

/-- The loop `for _, o := range options { o(&opt) }` applied to the zero value. -/
def applyOptions (options : List COption) : OptionRec :=
  options.foldl (fun o f => f o) {}

/-- The part of the `check:` switch reached with `ok = true`: the
`validateRegExp` case is consulted first, then the `validateFunc` case, and
when neither applies the value is returned with a nil error. -/
def validatePhase (key value : String) (opt : OptionRec) : Except CError String :=
  match opt.validateRegExp with
  | some matcher =>
    if matcher value then .ok value else .error (.regExpValidation key)
  | none =>
    match opt.validateFunc with
    | some f =>
      match f key value with
      | some e => .error e
      | none => .ok value
    | none => .ok value

/-- The function `checkApplyOptions(key, value, ok, options...)`.  An empty
value clears `ok`; the `check:` switch then either fails a required key,
substitutes a non-empty default and re-runs the switch with `ok = true`
(the `goto check`), silently returns the empty string, or validates. -/
def checkApplyOptions (key value : String) (ok : Bool)
    (options : List COption) : Except CError String :=
  let opt := applyOptions options
  let ok1 := if value = "" then false else ok
  if !ok1 && opt.require then .error (.noKey key)
  else if !ok1 && opt.defaultValue ≠ "" then validatePhase key opt.defaultValue opt
  else if !ok1 then .ok ""
  else validatePhase key value opt

/-- The method `Params.String(key, options...)`: `val, ok := s[key]` followed by
`checkApplyOptions`. -/
def paramsString (s : Params) (key : String) (options : List COption) :
    Except CError String :=
  checkApplyOptions key ((mapGet key s).getD "") (mapGet key s).isSome options

/-- Removal of the leading and trailing newline characters performed by
`strings.Trim(out.String(), "\n")`. -/
def trimNewlines (s : String) : String :=
  ⟨((s.data.dropWhile (· = '\n')).reverse.dropWhile (· = '\n')).reverse⟩

/-- Lexicographic comparison of character lists, the order used by Go's
`sort.Strings` (byte-wise comparison; UTF-8 byte order coincides with code
point order). -/
def charListLe : List Char → List Char → Bool
  | [], _ => true
  | _ :: _, [] => false
  | a :: as, b :: bs => if a < b then true else if b < a then false else charListLe as bs

/-- String comparison of `sort.Strings`, on the underlying characters. -/
def strLeb (a b : String) : Bool := charListLe a.data b.data

/-- The sorting relation of `sort.Strings` as a decidable Prop relation. -/
def strRel : String → String → Prop := fun a b => strLeb a b = true

instance : DecidableRel strRel := fun a b =>
  inferInstanceAs (Decidable (strLeb a b = true))

/-- Rendering of one section by `MustPrettyPrint`: the header `[sec]` preceded
by a blank line, then one `indent + key + ": " + value` line per key, keys in
sorted (`sort.Strings`) order. -/
def renderSection (pool : PoolMap) (indent : String) (out : String)
    (sec : String) : String :=
  let ps := getSection pool sec
  let keys := List.insertionSort strRel (ps.map Prod.fst)
  keys.foldl
    (fun acc key => acc ++ indent ++ key ++ ": " ++ (mapGet key ps).getD "" ++ "\n")
    (out ++ "\n[" ++ sec ++ "]\n")

/-- The function `MustPrettyPrint(pool, indent)`: sections rendered in sorted
(`sort.Strings`) order, with leading/trailing newlines trimmed from the
accumulated output. -/
def MustPrettyPrint (pool : PoolMap) (indent : String) : String :=
  let sections := List.insertionSort strRel (pool.map Prod.fst)
  trimNewlines (sections.foldl (renderSection pool indent) "")

/-! ### Basic lemmas about the map model -/

theorem mapGet_mapSet_self {α : Type} (m : List (String × α)) (key : String)
    (val : α) : mapGet key (mapSet m key val) = some val := by
  induction m with
  | nil => simp [mapSet, mapGet]
  | cons kv rest ih =>
    obtain ⟨k, v⟩ := kv
    by_cases h : k = key
    · simp [mapSet, h, mapGet]
    · simp [mapSet, h, mapGet, ih]

theorem mapGet_mapSet_ne {α : Type} (m : List (String × α)) {key key' : String}
    (val : α) (h : key' ≠ key) :
    mapGet key' (mapSet m key val) = mapGet key' m := by
  induction m with
  | nil => simp [mapSet, mapGet, Ne.symm h]
  | cons kv rest ih =>
    obtain ⟨k, v⟩ := kv
    by_cases hk : k = key
    · subst hk
      simp [mapSet, mapGet, Ne.symm h]
    · simp only [mapSet, if_neg hk, mapGet]
      split
      · rfl
      · exact ih

theorem mapGet_isSome_iff {α : Type} (m : List (String × α)) (key : String) :
    (mapGet key m).isSome ↔ key ∈ m.map Prod.fst := by
  induction m with
  | nil => simp [mapGet]
  | cons kv rest ih =>
    obtain ⟨k, v⟩ := kv
    by_cases h : k = key
    · simp [mapGet, h]
    · simp [mapGet, h, ih, Ne.symm h]

theorem mapGet_eq_some_mem {α : Type} {m : List (String × α)} {key : String}
    {v : α} (h : mapGet key m = some v) : (key, v) ∈ m := by
  induction m with
  | nil => simp [mapGet] at h
  | cons kv rest ih =>
    obtain ⟨k, w⟩ := kv
    by_cases hk : k = key
    · subst hk
      simp [mapGet] at h
      simp [h]
    · simp [mapGet, hk] at h
      simp [ih h]

theorem mem_mapGet_nodup {α : Type} {m : List (String × α)}
    (hnd : (m.map Prod.fst).Nodup) {key : String} {v : α}
    (hm : (key, v) ∈ m) : mapGet key m = some v := by
  induction m with
  | nil => simp at hm
  | cons kv rest ih =>
    obtain ⟨k, w⟩ := kv
    simp only [List.map_cons, List.nodup_cons] at hnd
    rcases List.mem_cons.mp hm with h | h
    · obtain ⟨h1, h2⟩ := Prod.mk.injEq .. ▸ h
      simp [mapGet, h1.symm, h2]
    · have hk : k ≠ key := by
        intro hk
        subst hk
        exact hnd.1 (List.mem_map.mpr ⟨(k, v), h, rfl⟩)
      simp [mapGet, hk, ih hnd.2 h]

theorem keys_mapSet {α : Type} (m : List (String × α)) (key : String) (val : α) :
    (mapSet m key val).map Prod.fst =
      if key ∈ m.map Prod.fst then m.map Prod.fst else m.map Prod.fst ++ [key] := by
  induction m with
  | nil => simp [mapSet]
  | cons kv rest ih =>
    obtain ⟨k, v⟩ := kv
    by_cases h : k = key
    · simp [mapSet, h]
    · simp only [mapSet, if_neg h, List.map_cons, List.mem_cons, ih]
      have hne : ¬key = k := Ne.symm h
      by_cases h2 : key ∈ rest.map Prod.fst <;> simp [h2, hne]

theorem nodup_keys_mapSet {α : Type} (m : List (String × α)) (key : String)
    (val : α) (h : (m.map Prod.fst).Nodup) :
    ((mapSet m key val).map Prod.fst).Nodup := by
  rw [keys_mapSet]
  by_cases hmem : key ∈ m.map Prod.fst
  · simpa [hmem] using h
  · simp [hmem, List.nodup_append, h]

theorem mem_mapSet {α : Type} {m : List (String × α)} {key : String} {val : α}
    {p : String × α} (h : p ∈ mapSet m key val) : p ∈ m ∨ p = (key, val) := by
  induction m with
  | nil => simp [mapSet] at h; simp [h]
  | cons kv rest ih =>
    obtain ⟨k, v⟩ := kv
    by_cases hk : k = key
    · subst hk
      simp [mapSet] at h
      rcases h with h | h
      · simp [h]
      · simp [h]
    · simp [mapSet, hk] at h
      rcases h with h | h
      · simp [h]
      · rcases ih h with h2 | h2
        · simp [h2]
        · simp [h2]

theorem firstSome_none_right {α : Type} (x : Option α) : firstSome x none = x := by
  cases x <;> rfl

theorem firstSome_assoc {α : Type} (x y z : Option α) :
    firstSome x (firstSome y z) = firstSome (firstSome x y) z := by
  cases x <;> rfl

/-! ### Claims about the options resolver -/

/-- C6: the options resolver treats a key present with an empty-string value
identically to an absent key: for every key and option list,
`checkApplyOptions key "" true options` and `checkApplyOptions key "" false
options` return the same result (so for example a default applies, `Require`
fails with `NoKeyError`, and no options yield an empty value with nil error,
in either case). -/
theorem emptyValue_equiv_absent (key : String) (options : List COption) :
    checkApplyOptions key "" true options = checkApplyOptions key "" false options := by
  simp [checkApplyOptions]

/-- C5: `Require` takes precedence over `Default` in the options resolver.
With both `Require` and `Default d` specified, a key that is absent or holds
the empty string resolves to `NoKeyError` carrying the key name (the default
is not substituted), while a key present with a non-empty value resolves to
that existing value (the default is ignored). -/
theorem require_precedes_default (s : Params) (key d : String) :
    ((mapGet key s = none ∨ mapGet key s = some "") →
      paramsString s key [Require, Default d] = .error (.noKey key)) ∧
    (∀ v, mapGet key s = some v → v ≠ "" →
      paramsString s key [Require, Default d] = .ok v) := by
  have hopt : applyOptions [Require, Default d] =
      { defaultValue := d, require := true } := rfl
  constructor
  · intro h
    rcases h with h | h <;>
      simp [paramsString, h, checkApplyOptions, hopt]
  · intro v hv hne
    simp [paramsString, hv, checkApplyOptions, hopt, hne, validatePhase]

/-- Witness for C5 at concrete inputs: the key "b" is absent from the section,
so `Require` wins over `Default "z"`; the key "a" is present with value "y",
which is returned as-is. -/
theorem require_precedes_default_witness :
    paramsString [("a", "y")] "b" [Require, Default "z"] = .error (.noKey "b") ∧
    paramsString [("a", "y")] "a" [Require, Default "z"] = .ok "y" :=
  ⟨(require_precedes_default [("a", "y")] "b" "z").1 (Or.inl (by decide)),
   (require_precedes_default [("a", "y")] "a" "z").2 "y" (by decide) (by decide)⟩

/-- C10: a `Default ""` option is a no-op.  For a key absent or empty-valued,
with `Default ""` as the only option the resolver returns the empty string and
no error (the default branch fires only for a non-empty default), and with
`Require` additionally set it still returns `NoKeyError`. -/
theorem default_empty_noop (s : Params) (key : String)
    (h : mapGet key s = none ∨ mapGet key s = some "") :
    paramsString s key [Default ""] = .ok "" ∧
    paramsString s key [Require, Default ""] = .error (.noKey key) := by
  have h1 : applyOptions [Default ""] = {} := rfl
  have h2 : applyOptions [Require, Default ""] = { require := true } := rfl
  rcases h with h | h <;>
    exact ⟨by simp [paramsString, h, checkApplyOptions, h1],
           by simp [paramsString, h, checkApplyOptions, h2]⟩

/-- Witness for C10: the key "k" is absent from the section `[("a", "y")]`. -/
theorem default_empty_noop_witness :
    paramsString [("a", "y")] "k" [Default ""] = .ok "" ∧
    paramsString [("a", "y")] "k" [Require, Default ""] = .error (.noKey "k") :=
  default_empty_noop [("a", "y")] "k" (Or.inl (by decide))

/-! ### Claim about Pool.Raw -/

/-- C1 fails on the code: `Raw()` constructs a deep copy but returns the
internal `p.params` map, so the returned map aliases the pool.  At the concrete
pool `{"s": {"k": "v"}}`, the returned contents do equal the pool, but writing
`"w"` into the returned map changes the pool itself, and a subsequent
`Get("s", "k")` observes `"w"`, not the original `"v"`. -/
theorem raw_returns_internal_map :
    (poolRaw [("s", [("k", "v")])]).contents = [("s", [("k", "v")])] ∧
    (poolRaw [("s", [("k", "v")])]).aliased = true ∧
    writeThruRaw [("s", [("k", "v")])] (poolRaw [("s", [("k", "v")])]) "s" "k" "w"
      = [("s", [("k", "w")])] ∧
    poolGet (writeThruRaw [("s", [("k", "v")])] (poolRaw [("s", [("k", "v")])]) "s" "k" "w")
      "s" "k" = ("w", true) := by
  refine ⟨rfl, rfl, by decide, by decide⟩

/-! ### Strategy handling in merge -/

theorem mergeKeys_unknown_eq_keep (sec : String) (s : Strategy) (h0 : s ≠ Report)
    (h1 : s ≠ Overwrite) (h2 : s ≠ Keep) :
    ∀ entries resSec, mergeKeys sec resSec entries s = mergeKeys sec resSec entries Keep := by
  have h0n : s ≠ 0 := h0
  have h1n : s ≠ 1 := h1
  have h2n : s ≠ 2 := h2
  intro entries
  induction entries with
  | nil => intro resSec; rfl
  | cons kv rest ih =>
    intro resSec
    obtain ⟨key, val⟩ := kv
    cases hg : mapGet key resSec with
    | some w =>
      simp [mergeKeys, hg, Report, Keep, Overwrite, h0n, h1n, h2n, ih]
    | none =>
      simp only [mergeKeys, hg]
      exact ih _

theorem mergeSections_unknown_eq_keep (s : Strategy) (h0 : s ≠ Report)
    (h1 : s ≠ Overwrite) (h2 : s ≠ Keep) :
    ∀ entries res, mergeSections res entries s = mergeSections res entries Keep := by
  intro entries
  induction entries with
  | nil => intro res; rfl
  | cons sp rest ih =>
    intro res
    obtain ⟨sec, params⟩ := sp
    cases hg : mapGet sec res with
    | some resSec =>
      simp only [mergeSections, hg]
      rw [mergeKeys_unknown_eq_keep sec s h0 h1 h2]
      cases hmk : mergeKeys sec resSec params Keep with
      | error e => rfl
      | ok merged => exact ih _
    | none =>
      simp only [mergeSections, hg]
      exact ih _

/-- C9: `Strategy` is a public `uint8`, so values other than `Report` (0),
`Overwrite` (1) and `Keep` (2) can be passed; the `default` branch of the
merge switch makes all of them behave exactly like `Keep`: existing values are
retained, the incoming value is discarded, and no error is returned. -/
theorem merge_unknown_strategy_eq_keep (first second : PoolMap) (s : Strategy)
    (_hu : s < 256) (h0 : s ≠ Report) (h1 : s ≠ Overwrite) (h2 : s ≠ Keep) :
    merge first second s = merge first second Keep := by
  unfold merge
  split
  · rfl
  · split
    · rfl
    · exact mergeSections_unknown_eq_keep s h0 h1 h2 second (copyPool first)

/-- Witness for C9: strategy value 7 merges exactly like `Keep` on a pool with
an overlapping key and a fresh section. -/
theorem merge_unknown_strategy_eq_keep_witness :
    merge [("s", [("k", "v")])] [("s", [("k", "x")]), ("t", [("a", "b")])] 7
      = merge [("s", [("k", "v")])] [("s", [("k", "x")]), ("t", [("a", "b")])] Keep :=
  merge_unknown_strategy_eq_keep [("s", [("k", "v")])]
    [("s", [("k", "x")]), ("t", [("a", "b")])] 7
    (by decide) (by decide) (by decide) (by decide)

/-! ### Merge errors occur only under Report -/

theorem mergeKeys_error_report {sec : String} {s : Strategy} {e : MergeErr} :
    ∀ {entries resSec}, mergeKeys sec resSec entries s = .error e → s = Report := by
  intro entries
  induction entries with
  | nil => intro resSec h; simp [mergeKeys] at h
  | cons kv rest ih =>
    intro resSec h
    obtain ⟨key, val⟩ := kv
    cases hg : mapGet key resSec with
    | some w =>
      simp only [mergeKeys, hg] at h
      by_cases h0 : s = Report
      · exact h0
      · rw [if_neg h0] at h
        by_cases h2 : s = Keep
        · rw [if_pos h2] at h
          exact ih h
        · rw [if_neg h2] at h
          by_cases h1 : s = Overwrite
          · rw [if_pos h1] at h
            exact ih h
          · rw [if_neg h1] at h
            exact ih h
    | none =>
      simp only [mergeKeys, hg] at h
      exact ih h

theorem mergeSections_error_report {s : Strategy} {e : MergeErr} :
    ∀ {entries res}, mergeSections res entries s = .error e → s = Report := by
  intro entries
  induction entries with
  | nil => intro res h; simp [mergeSections] at h
  | cons sp rest ih =>
    intro res h
    obtain ⟨sec, params⟩ := sp
    cases hg : mapGet sec res with
    | some resSec =>
      simp only [mergeSections, hg] at h
      cases hmk : mergeKeys sec resSec params s with
      | error f =>
        exact mergeKeys_error_report hmk
      | ok merged =>
        rw [hmk] at h
        exact ih h
    | none =>
      simp only [mergeSections, hg] at h
      exact ih h

theorem merge_error_report {first second : PoolMap} {s : Strategy} {e : MergeErr}
    (h : merge first second s = .error e) : s = Report := by
  unfold merge at h
  split at h
  · simp at h
  · split at h
    · simp at h
    · exact mergeSections_error_report h

/-- C3: `Pool.Merge` is atomic on failure.  With the receiver state made
explicit, whenever the call reports an error (which can only happen under the
Report strategy) the pool's section map afterwards is exactly what it was
before the call; on success the merged result replaces the prior state. -/
theorem poolMerge_atomic (p q : PoolMap) (s : Strategy) :
    (∀ e st, poolMerge p q s = (some e, st) → st = p ∧ s = Report) ∧
    (∀ st, poolMerge p q s = (none, st) → merge p q s = .ok st) := by
  constructor
  · intro e st h
    unfold poolMerge at h
    cases hm : merge p q s with
    | error f =>
      rw [hm] at h
      obtain ⟨h1, h2⟩ := Prod.mk.injEq .. ▸ h
      exact ⟨h2.symm, merge_error_report hm⟩
    | ok res =>
      rw [hm] at h
      simp at h
  · intro st h
    unfold poolMerge at h
    cases hm : merge p q s with
    | error f =>
      rw [hm] at h
      simp at h
    | ok res =>
      rw [hm] at h
      obtain ⟨h1, h2⟩ := Prod.mk.injEq .. ▸ h
      exact congrArg Except.ok h2

/-- Witness for C3: a Report-strategy merge with an overlapping key fails and
leaves the pool state unchanged. -/
theorem poolMerge_atomic_witness :
    (poolMerge [("s", [("k", "v")])] [("s", [("k", "x")])] Report).2
      = [("s", [("k", "v")])] ∧ Report = Report :=
  (poolMerge_atomic [("s", [("k", "v")])] [("s", [("k", "x")])] Report).1
    ⟨"s", "k"⟩ _ (by decide)

/-! ### Report strategy: error exactly on overlapping keys -/

theorem lookup2_nil (sec key : String) : lookup2 [] sec key = none := rfl

theorem lookup2_isSome_sec {m : PoolMap} {sec key : String}
    (h : (lookup2 m sec key).isSome) : (mapGet sec m).isSome := by
  unfold lookup2 getSection at h
  cases hg : mapGet sec m with
  | some ps => simp
  | none => rw [hg] at h; simp [mapGet] at h

theorem getSection_eq {m : PoolMap} {sec : String} {ps : Params}
    (h : mapGet sec m = some ps) : getSection m sec = ps := by
  unfold getSection
  rw [h]
  rfl

theorem getSection_mapSet_self (m : PoolMap) (sec : String) (ps : Params) :
    getSection (mapSet m sec ps) sec = ps :=
  getSection_eq (mapGet_mapSet_self m sec ps)

theorem getSection_mapSet_ne (m : PoolMap) {sec sec' : String} (ps : Params)
    (h : sec' ≠ sec) : getSection (mapSet m sec ps) sec' = getSection m sec' := by
  unfold getSection
  rw [mapGet_mapSet_ne m ps h]

theorem lookup2_mapSet_ne (m : PoolMap) {sec sec' : String} (ps : Params)
    (key : String) (h : sec' ≠ sec) :
    lookup2 (mapSet m sec ps) sec' key = lookup2 m sec' key := by
  unfold lookup2
  rw [getSection_mapSet_ne m ps h]

/-- Behaviour of the inner merge loop under the Report strategy: the loop fails
exactly when one of the incoming keys already exists in the section, and on
success the result extends the section with the (necessarily fresh) incoming
keys. -/
theorem mergeKeys_report (sec : String) :
    ∀ entries resSec, ParamsND entries →
      (∀ e, mergeKeys sec resSec entries Report = .error e →
        ∃ key, (mapGet key resSec).isSome ∧ (mapGet key entries).isSome) ∧
      (∀ M, mergeKeys sec resSec entries Report = .ok M →
        (∀ key, ¬((mapGet key resSec).isSome ∧ (mapGet key entries).isSome)) ∧
        ∀ k, mapGet k M = firstSome (mapGet k resSec) (mapGet k entries)) := by
  intro entries
  induction entries with
  | nil =>
    intro resSec _
    constructor
    · intro e h
      simp [mergeKeys] at h
    · intro M h
      simp only [mergeKeys] at h
      obtain rfl : resSec = M := by injection h
      refine ⟨fun key hk => by simp [mapGet] at hk, fun k => ?_⟩
      simp [mapGet, firstSome_none_right]
  | cons kv rest ih =>
    intro resSec hnd
    obtain ⟨key, val⟩ := kv
    have hnd1 : key ∉ rest.map Prod.fst := by
      have := hnd
      unfold ParamsND at this
      simp only [List.map_cons, List.nodup_cons] at this
      exact this.1
    have hnd2 : ParamsND rest := by
      have := hnd
      unfold ParamsND at this
      simp only [List.map_cons, List.nodup_cons] at this
      exact this.2
    cases hg : mapGet key resSec with
    | some w =>
      constructor
      · intro e h
        exact ⟨key, by simp [hg], by simp [mapGet]⟩
      · intro M h
        simp [mergeKeys, hg, Report] at h
    | none =>
      have IH := ih (mapSet resSec key val) hnd2
      constructor
      · intro e h
        simp only [mergeKeys, hg] at h
        obtain ⟨k0, hk1, hk2⟩ := IH.1 e h
        have hk0ne : k0 ≠ key := by
          intro hk
          subst hk
          rw [mapGet_mapSet_self] at hk1
          exact hnd1 ((mapGet_isSome_iff rest k0).mp hk2)
        refine ⟨k0, ?_, ?_⟩
        · rwa [mapGet_mapSet_ne resSec val hk0ne] at hk1
        · simp [mapGet, Ne.symm hk0ne, hk2]
      · intro M h
        simp only [mergeKeys, hg] at h
        obtain ⟨hno, hget⟩ := IH.2 M h
        constructor
        · intro k0 hk
          by_cases hk0 : k0 = key
          · subst hk0
            rw [hg] at hk
            simp at hk
          · refine hno k0 ⟨?_, ?_⟩
            · rw [mapGet_mapSet_ne resSec val hk0]
              exact hk.1
            · have := hk.2
              simpa [mapGet, Ne.symm hk0] using this
        · intro k
          by_cases hk0 : k = key
          · subst hk0
            rw [hget k, mapGet_mapSet_self]
            have hrest : mapGet k rest = none := by
              cases hr : mapGet k rest with
              | none => rfl
              | some u =>
                exact absurd ((mapGet_isSome_iff rest k).mp (by simp [hr])) hnd1
            simp [hrest, hg, firstSome, mapGet]
          · rw [hget k, mapGet_mapSet_ne resSec val hk0]
            simp [mapGet, Ne.symm hk0, firstSome]

/-- Behaviour of the outer merge loop under the Report strategy: the loop fails
exactly when some incoming section/key pair already exists in the accumulated
pool. -/
theorem mergeSections_report :
    ∀ entries res, PoolND entries →
      (∀ e, mergeSections res entries Report = .error e →
        ∃ sec key, (lookup2 res sec key).isSome ∧ (lookup2 entries sec key).isSome) ∧
      (∀ R, mergeSections res entries Report = .ok R →
        ∀ sec key, ¬((lookup2 res sec key).isSome ∧ (lookup2 entries sec key).isSome)) := by
  intro entries
  induction entries with
  | nil =>
    intro res _
    constructor
    · intro e h
      simp [mergeSections] at h
    · intro R _ sec key hk
      rw [lookup2_nil] at hk
      simp at hk
  | cons sp rest ih =>
    intro res hnd
    obtain ⟨sec, params⟩ := sp
    have hsec : sec ∉ rest.map Prod.fst := by
      have := hnd.1
      simp only [List.map_cons, List.nodup_cons] at this
      exact this.1
    have hpnd : ParamsND params := hnd.2 (sec, params) (by simp)
    have hrest : PoolND rest := by
      refine ⟨?_, fun sp hm => hnd.2 sp (List.mem_cons_of_mem _ hm)⟩
      have := hnd.1
      simp only [List.map_cons, List.nodup_cons] at this
      exact this.2
    have crest : ∀ s0 k0, (lookup2 rest s0 k0).isSome →
        lookup2 ((sec, params) :: rest) s0 k0 = lookup2 rest s0 k0 := by
      intro s0 k0 hs
      have hs0 : s0 ≠ sec := by
        intro he
        subst he
        exact hsec ((mapGet_isSome_iff rest s0).mp (lookup2_isSome_sec hs))
      unfold lookup2 getSection
      simp [mapGet, Ne.symm hs0]
    cases hg : mapGet sec res with
    | some resSec =>
      cases hmk : mergeKeys sec resSec params Report with
      | error e =>
        constructor
        · intro f h
          obtain ⟨k0, hk1, hk2⟩ := (mergeKeys_report sec params resSec hpnd).1 e hmk
          refine ⟨sec, k0, ?_, ?_⟩
          · rwa [lookup2, getSection_eq hg]
          · rw [lookup2, getSection_eq (show mapGet sec ((sec, params) :: rest)
              = some params by simp [mapGet])]
            exact hk2
        · intro R h
          simp [mergeSections, hg, hmk] at h
      | ok merged =>
        have IH := ih (mapSet res sec merged) hrest
        have hnov := ((mergeKeys_report sec params resSec hpnd).2 merged hmk).1
        constructor
        · intro f h
          simp only [mergeSections, hg, hmk] at h
          obtain ⟨s0, k0, hk1, hk2⟩ := IH.1 f h
          have hs0 : s0 ≠ sec := by
            intro he
            subst he
            exact hsec ((mapGet_isSome_iff rest s0).mp (lookup2_isSome_sec hk2))
          refine ⟨s0, k0, ?_, ?_⟩
          · rwa [lookup2_mapSet_ne res merged k0 hs0] at hk1
          · rwa [crest s0 k0 hk2]
        · intro R h
          simp only [mergeSections, hg, hmk] at h
          intro s0 k0 hk
          by_cases hs0 : s0 = sec
          · subst hs0
            refine hnov k0 ⟨?_, ?_⟩
            · rw [lookup2, getSection_eq hg] at hk
              exact hk.1
            · have := hk.2
              rw [lookup2, getSection_eq (show mapGet s0 ((s0, params) :: rest)
                = some params by simp [mapGet])] at this
              exact this
          · refine IH.2 R h s0 k0 ⟨?_, ?_⟩
            · rw [lookup2_mapSet_ne res merged k0 hs0]
              exact hk.1
            · have := hk.2
              unfold lookup2 getSection at this ⊢
              simpa [mapGet, Ne.symm hs0] using this
    | none =>
      have IH := ih (mapSet res sec (copyParams params)) hrest
      constructor
      · intro f h
        simp only [mergeSections, hg] at h
        obtain ⟨s0, k0, hk1, hk2⟩ := IH.1 f h
        have hs0 : s0 ≠ sec := by
          intro he
          subst he
          exact hsec ((mapGet_isSome_iff rest s0).mp (lookup2_isSome_sec hk2))
        refine ⟨s0, k0, ?_, ?_⟩
        · rwa [lookup2_mapSet_ne res (copyParams params) k0 hs0] at hk1
        · rwa [crest s0 k0 hk2]
      · intro R h
        simp only [mergeSections, hg] at h
        intro s0 k0 hk
        by_cases hs0 : s0 = sec
        · subst hs0
          have := hk.1
          rw [lookup2, getSection] at this
          rw [hg] at this
          simp [mapGet] at this
        · refine IH.2 R h s0 k0 ⟨?_, ?_⟩
          · rw [lookup2_mapSet_ne res (copyParams params) k0 hs0]
            exact hk.1
          · have := hk.2
            unfold lookup2 getSection at this ⊢
            simpa [mapGet, Ne.symm hs0] using this

/-- C2 amended: under the Report strategy, merge returns an error exactly when
some section+key pair is present in both inputs — regardless of whether the
two values agree.  (The claim as frozen — error only on divergent values —
fails; see the counterexample.) -/
theorem merge_report_error_iff (a b : PoolMap) (hb : PoolND b) :
    (∃ e, merge a b Report = .error e) ↔
      ∃ sec key, (lookup2 a sec key).isSome ∧ (lookup2 b sec key).isSome := by
  unfold merge
  by_cases ha0 : a.isEmpty
  · obtain rfl : a = [] := List.isEmpty_iff.mp ha0
    simp [lookup2_nil]
  · rw [if_neg ha0]
    by_cases hb0 : b.isEmpty
    · obtain rfl : b = [] := List.isEmpty_iff.mp hb0
      simp [lookup2_nil]
    · rw [if_neg hb0]
      have H := mergeSections_report b (copyPool a) hb
      constructor
      · intro he
        obtain ⟨e, he⟩ := he
        exact H.1 e he
      · intro hov
        cases hr : mergeSections (copyPool a) b Report with
        | error e => exact ⟨e, rfl⟩
        | ok R =>
          obtain ⟨sec, key, h1, h2⟩ := hov
          exact absurd ⟨h1, h2⟩ (H.2 R hr sec key)

/-- Witness for the amended C2: the pools `{"s": {"k": "v"}}` and
`{"s": {"k": "x"}}` overlap at section "s", key "k", so the Report merge
errors. -/
theorem merge_report_error_iff_witness :
    PoolND [("s", [("k", "x")])] ∧
    ∃ e, merge [("s", [("k", "v")])] [("s", [("k", "x")])] Report = .error e :=
  ⟨by decide,
   (merge_report_error_iff [("s", [("k", "v")])] [("s", [("k", "x")])]
      (by decide)).mpr ⟨"s", "k", by decide, by decide⟩⟩

/-- C2 counterexample: merging a pool with itself under Report fails with a
conflict error even though the overlapping key "k" carries the identical value
"v" in both inputs, refuting the claim that Report errors only on divergent
values. -/
theorem report_error_despite_equal_values :
    merge [("s", [("k", "v")])] [("s", [("k", "v")])] Report = .error ⟨"s", "k"⟩ ∧
    lookup2 [("s", [("k", "v")])] "s" "k" = some "v" ∧
    lookup2 [("s", [("k", "v")])] "s" "k" = some "v" := by
  refine ⟨by decide, by decide, by decide⟩

/-! ### Overwrite strategy: lookup characterisation and associativity -/

theorem mapGet_eq_none_of_not_mem {α : Type} {m : List (String × α)} {key : String}
    (h : key ∉ m.map Prod.fst) : mapGet key m = none := by
  cases hg : mapGet key m with
  | none => rfl
  | some v =>
    exact absurd ((mapGet_isSome_iff m key).mp (by simp [hg])) h

theorem mergeKeys_overwrite_step (sec key val : String) (resSec rest : Params) :
    mergeKeys sec resSec ((key, val) :: rest) Overwrite
      = mergeKeys sec (mapSet resSec key val) rest Overwrite := by
  simp only [mergeKeys]
  cases mapGet key resSec with
  | some w => simp [Overwrite, Report, Keep]
  | none => rfl

/-- Behaviour of the inner merge loop under the Overwrite strategy: it always
succeeds, and the incoming value wins on every overlapping key. -/
theorem mergeKeys_overwrite (sec : String) :
    ∀ entries resSec, ParamsND entries →
      ∃ M, mergeKeys sec resSec entries Overwrite = .ok M ∧
        ∀ k, mapGet k M = firstSome (mapGet k entries) (mapGet k resSec) := by
  intro entries
  induction entries with
  | nil =>
    intro resSec _
    exact ⟨resSec, rfl, fun k => by simp [mapGet, firstSome]⟩
  | cons kv rest ih =>
    intro resSec hnd
    obtain ⟨key, val⟩ := kv
    have hnd1 : key ∉ rest.map Prod.fst := by
      have := hnd
      unfold ParamsND at this
      simp only [List.map_cons, List.nodup_cons] at this
      exact this.1
    have hnd2 : ParamsND rest := by
      have := hnd
      unfold ParamsND at this
      simp only [List.map_cons, List.nodup_cons] at this
      exact this.2
    obtain ⟨M, hM, hchar⟩ := ih (mapSet resSec key val) hnd2
    refine ⟨M, (mergeKeys_overwrite_step sec key val resSec rest).trans hM, fun k => ?_⟩
    by_cases hk : k = key
    · subst hk
      rw [hchar k, mapGet_eq_none_of_not_mem hnd1, mapGet_mapSet_self]
      simp [mapGet, firstSome]
    · rw [hchar k, mapGet_mapSet_ne resSec val hk]
      simp [mapGet, Ne.symm hk]

/-- Behaviour of the outer merge loop under the Overwrite strategy: it always
succeeds, incoming values win pointwise, and the resulting section names are
the union of both inputs. -/
theorem mergeSections_overwrite :
    ∀ entries res, PoolND entries →
      ∃ R, mergeSections res entries Overwrite = .ok R ∧
        (∀ sec k, lookup2 R sec k = firstSome (lookup2 entries sec k) (lookup2 res sec k)) ∧
        (∀ sec, (mapGet sec R).isSome
          = ((mapGet sec res).isSome || (mapGet sec entries).isSome)) := by
  intro entries
  induction entries with
  | nil =>
    intro res _
    refine ⟨res, rfl, fun sec k => ?_, fun sec => by simp [mapGet]⟩
    rw [lookup2_nil]
    rfl
  | cons sp rest ih =>
    intro res hnd
    obtain ⟨sec, params⟩ := sp
    have hsec : sec ∉ rest.map Prod.fst := by
      have := hnd.1
      simp only [List.map_cons, List.nodup_cons] at this
      exact this.1
    have hpnd : ParamsND params := hnd.2 (sec, params) (by simp)
    have hrest : PoolND rest := by
      refine ⟨?_, fun q hm => hnd.2 q (List.mem_cons_of_mem _ hm)⟩
      have := hnd.1
      simp only [List.map_cons, List.nodup_cons] at this
      exact this.2
    have hrestsec : mapGet sec rest = none := mapGet_eq_none_of_not_mem hsec
    cases hg : mapGet sec res with
    | some resSec =>
      obtain ⟨M, hM, hMchar⟩ := mergeKeys_overwrite sec params resSec hpnd
      obtain ⟨R, hR, hchar, hpres⟩ := ih (mapSet res sec M) hrest
      refine ⟨R, ?_, fun s0 k => ?_, fun s0 => ?_⟩
      · simp only [mergeSections, hg, hM]
        exact hR
      · rw [hchar s0 k]
        by_cases hs0 : s0 = sec
        · subst hs0
          rw [show lookup2 rest s0 k = none by
              unfold lookup2 getSection
              rw [hrestsec]
              rfl]
          rw [show lookup2 (mapSet res s0 M) s0 k = mapGet k M by
              unfold lookup2
              rw [getSection_mapSet_self]]
          rw [hMchar k]
          rw [show lookup2 ((s0, params) :: rest) s0 k = mapGet k params by
              unfold lookup2 getSection
              simp [mapGet]]
          rw [show lookup2 res s0 k = mapGet k resSec by
              unfold lookup2
              rw [getSection_eq hg]]
          simp [firstSome]
        · rw [lookup2_mapSet_ne res M k hs0]
          rw [show lookup2 ((sec, params) :: rest) s0 k = lookup2 rest s0 k by
              unfold lookup2 getSection
              simp [mapGet, Ne.symm hs0]]
      · rw [hpres s0]
        by_cases hs0 : s0 = sec
        · subst hs0
          rw [mapGet_mapSet_self, hg]
          simp [mapGet]
        · rw [mapGet_mapSet_ne res M hs0]
          simp [mapGet, Ne.symm hs0]
    | none =>
      obtain ⟨R, hR, hchar, hpres⟩ := ih (mapSet res sec (copyParams params)) hrest
      refine ⟨R, ?_, fun s0 k => ?_, fun s0 => ?_⟩
      · simp only [mergeSections, hg]
        exact hR
      · rw [hchar s0 k]
        by_cases hs0 : s0 = sec
        · subst hs0
          rw [show lookup2 rest s0 k = none by
              unfold lookup2 getSection
              rw [hrestsec]
              rfl]
          rw [show lookup2 (mapSet res s0 (copyParams params)) s0 k = mapGet k params by
              unfold lookup2
              rw [getSection_mapSet_self]
              rfl]
          rw [show lookup2 ((s0, params) :: rest) s0 k = mapGet k params by
              unfold lookup2 getSection
              simp [mapGet]]
          rw [show lookup2 res s0 k = none by
              unfold lookup2 getSection
              rw [hg]
              rfl]
          rw [firstSome_none_right]
          rfl
        · rw [lookup2_mapSet_ne res (copyParams params) k hs0]
          rw [show lookup2 ((sec, params) :: rest) s0 k = lookup2 rest s0 k by
              unfold lookup2 getSection
              simp [mapGet, Ne.symm hs0]]
      · rw [hpres s0]
        by_cases hs0 : s0 = sec
        · subst hs0
          rw [mapGet_mapSet_self, hg]
          simp [mapGet]
        · rw [mapGet_mapSet_ne res (copyParams params) hs0]
          simp [mapGet, Ne.symm hs0]

/-- The function `merge` under Overwrite always succeeds; the result looks up
to the incoming value when present, else the base value, and contains a section
name exactly when one of the inputs does. -/
theorem merge_overwrite (a b : PoolMap) (hb : PoolND b) :
    ∃ R, merge a b Overwrite = .ok R ∧
      (∀ sec k, lookup2 R sec k = firstSome (lookup2 b sec k) (lookup2 a sec k)) ∧
      (∀ sec, (mapGet sec R).isSome = ((mapGet sec a).isSome || (mapGet sec b).isSome)) := by
  unfold merge
  by_cases ha0 : a.isEmpty
  · obtain rfl : a = [] := List.isEmpty_iff.mp ha0
    refine ⟨b, rfl, fun sec k => ?_, fun sec => by simp [mapGet]⟩
    rw [lookup2_nil, firstSome_none_right]
  · rw [if_neg ha0]
    by_cases hb0 : b.isEmpty
    · obtain rfl : b = [] := List.isEmpty_iff.mp hb0
      refine ⟨a, rfl, fun sec k => ?_, fun sec => by simp [mapGet]⟩
      rw [lookup2_nil]
      rfl
    · rw [if_neg hb0]
      exact mergeSections_overwrite b (copyPool a) hb

/-! ### Merge preserves the no-duplicate-keys invariant -/

theorem mergeKeys_nd (sec : String) (s : Strategy) :
    ∀ entries resSec M, ParamsND resSec →
      mergeKeys sec resSec entries s = .ok M → ParamsND M := by
  intro entries
  induction entries with
  | nil =>
    intro resSec M hres h
    obtain rfl : resSec = M := by injection h
    exact hres
  | cons kv rest ih =>
    intro resSec M hres h
    obtain ⟨key, val⟩ := kv
    have hset : ParamsND (mapSet resSec key val) := nodup_keys_mapSet resSec key val hres
    cases hg : mapGet key resSec with
    | some w =>
      simp only [mergeKeys, hg] at h
      by_cases h0 : s = Report
      · rw [if_pos h0] at h
        simp at h
      · rw [if_neg h0] at h
        by_cases h2 : s = Keep
        · rw [if_pos h2] at h
          exact ih resSec M hres h
        · rw [if_neg h2] at h
          by_cases h1 : s = Overwrite
          · rw [if_pos h1] at h
            exact ih (mapSet resSec key val) M hset h
          · rw [if_neg h1] at h
            exact ih resSec M hres h
    | none =>
      simp only [mergeKeys, hg] at h
      exact ih (mapSet resSec key val) M hset h

theorem poolND_mapSet {res : PoolMap} {sec : String} {ps : Params}
    (hres : PoolND res) (hps : ParamsND ps) : PoolND (mapSet res sec ps) := by
  refine ⟨nodup_keys_mapSet res sec ps hres.1, fun sp hm => ?_⟩
  rcases mem_mapSet hm with h | h
  · exact hres.2 sp h
  · rw [h]
    exact hps

theorem mergeSections_nd (s : Strategy) :
    ∀ entries res R, PoolND res → (∀ sp ∈ entries, ParamsND sp.2) →
      mergeSections res entries s = .ok R → PoolND R := by
  intro entries
  induction entries with
  | nil =>
    intro res R hres _ h
    obtain rfl : res = R := by injection h
    exact hres
  | cons sp rest ih =>
    intro res R hres hent h
    obtain ⟨sec, params⟩ := sp
    have hpnd : ParamsND params := hent (sec, params) (by simp)
    have hrent : ∀ q ∈ rest, ParamsND q.2 := fun q hm => hent q (List.mem_cons_of_mem _ hm)
    cases hg : mapGet sec res with
    | some resSec =>
      have hressec : ParamsND resSec := hres.2 (sec, resSec) (mapGet_eq_some_mem hg)
      cases hmk : mergeKeys sec resSec params s with
      | error e =>
        simp [mergeSections, hg, hmk] at h
      | ok merged =>
        simp only [mergeSections, hg, hmk] at h
        have hmnd : ParamsND merged := mergeKeys_nd sec s params resSec merged hressec hmk
        exact ih (mapSet res sec merged) R (poolND_mapSet hres hmnd) hrent h
    | none =>
      simp only [mergeSections, hg] at h
      exact ih (mapSet res sec (copyParams params)) R (poolND_mapSet hres hpnd) hrent h

theorem merge_nd {a b R : PoolMap} {s : Strategy} (ha : PoolND a) (hb : PoolND b)
    (h : merge a b s = .ok R) : PoolND R := by
  unfold merge at h
  split at h
  · obtain rfl : b = R := by injection h
    exact hb
  · split at h
    · obtain rfl : a = R := by injection h
      exact ha
    · exact mergeSections_nd s b (copyPool a) R ha hb.2 h

/-- C8: `merge` under the Overwrite strategy is associative on non-conflicting
inputs.  For pools A, B, C (no duplicate keys, as Go maps guarantee) whose
section+key pairs are pairwise disjoint, merging (A+B)+C and A+(B+C) both
succeed with no error and produce equal maps: the same section names and the
same value under every section and key. -/
theorem merge_overwrite_assoc (A B C : PoolMap)
    (_hA : PoolND A) (hB : PoolND B) (hC : PoolND C)
    (_hdisj : (disjointPools A B && disjointPools A C && disjointPools B C) = true) :
    ∃ AB ABC BC ABC2,
      merge A B Overwrite = .ok AB ∧ merge AB C Overwrite = .ok ABC ∧
      merge B C Overwrite = .ok BC ∧ merge A BC Overwrite = .ok ABC2 ∧
      (∀ sec key, lookup2 ABC sec key = lookup2 ABC2 sec key) ∧
      (∀ sec, (mapGet sec ABC).isSome = (mapGet sec ABC2).isSome) := by
  obtain ⟨AB, hAB, hABc, hABp⟩ := merge_overwrite A B hB
  obtain ⟨ABC, hABC, hABCc, hABCp⟩ := merge_overwrite AB C hC
  obtain ⟨BC, hBC, hBCc, hBCp⟩ := merge_overwrite B C hC
  have hBCnd : PoolND BC := merge_nd hB hC hBC
  obtain ⟨ABC2, hABC2, hABC2c, hABC2p⟩ := merge_overwrite A BC hBCnd
  refine ⟨AB, ABC, BC, ABC2, hAB, hABC, hBC, hABC2, fun sec key => ?_, fun sec => ?_⟩
  · rw [hABCc sec key, hABc sec key, hABC2c sec key, hBCc sec key]
    rw [firstSome_assoc]
  · rw [hABCp sec, hABp sec, hABC2p sec, hBCp sec]
    rw [Bool.or_assoc]

/-- Witness for C8 at concrete pairwise-disjoint pools. -/
theorem merge_overwrite_assoc_witness :
    ∃ AB ABC BC ABC2,
      merge [("a", [("x", "1")])] [("b", [("y", "2")])] Overwrite = .ok AB ∧
      merge AB [("a", [("z", "3")])] Overwrite = .ok ABC ∧
      merge [("b", [("y", "2")])] [("a", [("z", "3")])] Overwrite = .ok BC ∧
      merge [("a", [("x", "1")])] BC Overwrite = .ok ABC2 ∧
      (∀ sec key, lookup2 ABC sec key = lookup2 ABC2 sec key) ∧
      (∀ sec, (mapGet sec ABC).isSome = (mapGet sec ABC2).isSome) :=
  merge_overwrite_assoc [("a", [("x", "1")])] [("b", [("y", "2")])]
    [("a", [("z", "3")])] (by decide) (by decide) (by decide) (by decide)

/-! ### Diff: lookup characterisation -/

theorem lookup2_congr_sec {m m' : PoolMap} {s0 : String}
    (h : mapGet s0 m = mapGet s0 m') (k : String) :
    lookup2 m s0 k = lookup2 m' s0 k := by
  unfold lookup2 getSection
  rw [h]

theorem diffMismatch_of_no_section {second : PoolMap} {sec : String}
    (h : mapGet sec second = none) (k v : String) :
    diffMismatch second sec k v = true := by
  unfold diffMismatch lookup2 getSection
  rw [h]
  rfl

/-- The inner diff loop only ever writes to the section it is processing. -/
theorem diffKeys_other (second : PoolMap) (sec : String) :
    ∀ entries res got {s0}, s0 ≠ sec →
      mapGet s0 (diffKeys second sec entries res got) = mapGet s0 res := by
  intro entries
  induction entries with
  | nil =>
    intro res got s0 h
    rfl
  | cons kv rest ih =>
    intro res got s0 h
    obtain ⟨key, val⟩ := kv
    simp only [diffKeys]
    by_cases hm : diffMismatch second sec key val = true
    · rw [if_pos hm, ih _ true h, mapGet_mapSet_ne _ _ h]
      by_cases hg : got
      · simp [hg]
      · simp [hg, mapGet_mapSet_ne _ _ h]
    · rw [if_neg hm]
      exact ih res got h

/-- The inner diff loop after the section under construction has been started
(`gotSection = true`): remaining mismatching entries are added, other keys of
the section are untouched. -/
theorem diffKeys_sec_true (second : PoolMap) (sec : String) :
    ∀ entries res, ParamsND entries →
      (∀ kv ∈ entries, mapGet kv.1 (getSection res sec) = none) →
      (mapGet sec res).isSome = true →
      (∀ k, mapGet k (getSection (diffKeys second sec entries res true) sec)
          = match mapGet k entries with
            | some v => if diffMismatch second sec k v then some v else none
            | none => mapGet k (getSection res sec)) ∧
      (mapGet sec (diffKeys second sec entries res true)).isSome = true := by
  intro entries
  induction entries with
  | nil =>
    intro res _ _ hsec
    exact ⟨fun k => rfl, hsec⟩
  | cons kv rest ih =>
    intro res hnd hinv hsec
    obtain ⟨key, val⟩ := kv
    have hnd1 : key ∉ rest.map Prod.fst := by
      have := hnd
      unfold ParamsND at this
      simp only [List.map_cons, List.nodup_cons] at this
      exact this.1
    have hnd2 : ParamsND rest := by
      have := hnd
      unfold ParamsND at this
      simp only [List.map_cons, List.nodup_cons] at this
      exact this.2
    have hkeynone : mapGet key (getSection res sec) = none :=
      hinv (key, val) (by simp)
    by_cases hm : diffMismatch second sec key val = true
    · simp only [diffKeys, if_pos hm, if_true]
      set res2 := mapSet res sec (mapSet (getSection res sec) key val) with hres2
      have hgs2 : getSection res2 sec = mapSet (getSection res sec) key val :=
        getSection_mapSet_self res sec _
      have hinv2 : ∀ kv ∈ rest, mapGet kv.1 (getSection res2 sec) = none := by
        intro q hq
        have hqne : q.1 ≠ key := by
          intro he
          exact hnd1 (he ▸ List.mem_map.mpr ⟨q, hq, rfl⟩)
        rw [hgs2, mapGet_mapSet_ne _ _ hqne]
        exact hinv q (List.mem_cons_of_mem _ hq)
      have hsec2 : (mapGet sec res2).isSome = true := by
        rw [hres2, mapGet_mapSet_self]
        rfl
      obtain ⟨hchar, hpres⟩ := ih res2 hnd2 hinv2 hsec2
      refine ⟨fun k => ?_, hpres⟩
      by_cases hk : k = key
      · subst hk
        rw [hchar k, mapGet_eq_none_of_not_mem hnd1, hgs2, mapGet_mapSet_self]
        simp [mapGet, hm]
      · rw [hchar k]
        cases hr : mapGet k rest with
        | some v => simp [mapGet, Ne.symm hk, hr]
        | none =>
          rw [hgs2, mapGet_mapSet_ne _ _ hk]
          simp [mapGet, Ne.symm hk, hr]
    · simp only [diffKeys, if_neg hm]
      obtain ⟨hchar, hpres⟩ := ih res hnd2
        (fun q hq => hinv q (List.mem_cons_of_mem _ hq)) hsec
      refine ⟨fun k => ?_, hpres⟩
      by_cases hk : k = key
      · subst hk
        rw [hchar k, mapGet_eq_none_of_not_mem hnd1, hkeynone]
        have hmf : diffMismatch second sec k val = false := by
          revert hm
          cases diffMismatch second sec k val <;> simp
        simp [mapGet, hmf]
      · rw [hchar k]
        cases hr : mapGet k rest with
        | some v => simp [mapGet, Ne.symm hk, hr]
        | none => simp [mapGet, Ne.symm hk, hr]

/-- The inner diff loop started fresh (`gotSection = false`): if some entry
mismatches, the result section holds exactly the mismatching entries; if none
does, the accumulated pool is returned unchanged. -/
theorem diffKeys_sec_false (second : PoolMap) (sec : String) :
    ∀ entries res, ParamsND entries →
      ((entries.any fun kv => diffMismatch second sec kv.1 kv.2) = true →
        (∀ k, mapGet k (getSection (diffKeys second sec entries res false) sec)
            = match mapGet k entries with
              | some v => if diffMismatch second sec k v then some v else none
              | none => none) ∧
        (mapGet sec (diffKeys second sec entries res false)).isSome = true) ∧
      ((entries.any fun kv => diffMismatch second sec kv.1 kv.2) = false →
        diffKeys second sec entries res false = res) := by
  intro entries
  induction entries with
  | nil =>
    intro res _
    exact ⟨fun h => by simp at h, fun _ => rfl⟩
  | cons kv rest ih =>
    intro res hnd
    obtain ⟨key, val⟩ := kv
    have hnd1 : key ∉ rest.map Prod.fst := by
      have := hnd
      unfold ParamsND at this
      simp only [List.map_cons, List.nodup_cons] at this
      exact this.1
    have hnd2 : ParamsND rest := by
      have := hnd
      unfold ParamsND at this
      simp only [List.map_cons, List.nodup_cons] at this
      exact this.2
    by_cases hm : diffMismatch second sec key val = true
    · constructor
      · intro _
        simp only [diffKeys, if_pos hm]
        rw [show (if false = true then res else mapSet res sec []) = mapSet res sec []
          from rfl]
        set res2 := mapSet (mapSet res sec []) sec
          (mapSet (getSection (mapSet res sec []) sec) key val) with hres2
        have hgs2 : getSection res2 sec = [(key, val)] := by
          rw [hres2, getSection_mapSet_self, getSection_mapSet_self]
          rfl
        have hinv2 : ∀ q ∈ rest, mapGet q.1 (getSection res2 sec) = none := by
          intro q hq
          have hqne : q.1 ≠ key := by
            intro he
            exact hnd1 (he ▸ List.mem_map.mpr ⟨q, hq, rfl⟩)
          rw [hgs2]
          simp [mapGet, Ne.symm hqne]
        have hsec2 : (mapGet sec res2).isSome = true := by
          rw [hres2, mapGet_mapSet_self]
          rfl
        obtain ⟨hchar, hpres⟩ := diffKeys_sec_true second sec rest res2 hnd2 hinv2 hsec2
        refine ⟨fun k => ?_, hpres⟩
        by_cases hk : k = key
        · subst hk
          rw [hchar k, mapGet_eq_none_of_not_mem hnd1, hgs2]
          simp [mapGet, hm]
        · rw [hchar k]
          cases hr : mapGet k rest with
          | some v => simp [mapGet, Ne.symm hk, hr]
          | none =>
            rw [hgs2]
            simp [mapGet, Ne.symm hk, hr, hk]
      · intro hany
        simp [List.any_cons, hm] at hany
    · have hmf : diffMismatch second sec key val = false := by
        revert hm
        cases diffMismatch second sec key val <;> simp
      constructor
      · intro hany
        rw [List.any_cons, hmf] at hany
        simp only [Bool.false_or] at hany
        simp only [diffKeys, if_neg hm]
        obtain ⟨hchar, hpres⟩ := (ih res hnd2).1 hany
        refine ⟨fun k => ?_, hpres⟩
        by_cases hk : k = key
        · subst hk
          rw [hchar k, mapGet_eq_none_of_not_mem hnd1]
          simp [mapGet, hmf]
        · rw [hchar k]
          cases hr : mapGet k rest with
          | some v => simp [mapGet, Ne.symm hk, hr]
          | none => simp [mapGet, Ne.symm hk, hr]
      · intro hany
        rw [List.any_cons, hmf] at hany
        simp only [Bool.false_or] at hany
        simp only [diffKeys, if_neg hm]
        exact (ih res hnd2).2 hany

/-- The outer diff loop: lookup and section-presence characterisation of the
final result, assuming the sections still to be processed have not been written
to the accumulator. -/
theorem diffSections_spec (second : PoolMap) :
    ∀ entries res, PoolND entries → (∀ sp ∈ entries, mapGet sp.1 res = none) →
      (∀ s0 k, lookup2 (diffSections second entries res) s0 k
          = match mapGet s0 entries with
            | some params =>
              (match mapGet k params with
               | some v => if diffMismatch second s0 k v then some v else none
               | none => none)
            | none => lookup2 res s0 k) ∧
      (∀ s0, (mapGet s0 (diffSections second entries res)).isSome
          = match mapGet s0 entries with
            | some params =>
              (!(mapGet s0 second).isSome ||
                params.any fun kv => diffMismatch second s0 kv.1 kv.2)
            | none => (mapGet s0 res).isSome) := by
  intro entries
  induction entries with
  | nil =>
    intro res _ _
    exact ⟨fun s0 k => rfl, fun s0 => rfl⟩
  | cons sp rest ih =>
    intro res hnd hres
    obtain ⟨sec, params⟩ := sp
    have hsecrest : sec ∉ rest.map Prod.fst := by
      have := hnd.1
      simp only [List.map_cons, List.nodup_cons] at this
      exact this.1
    have hpnd : ParamsND params := hnd.2 (sec, params) (by simp)
    have hrest : PoolND rest := by
      refine ⟨?_, fun q hm => hnd.2 q (List.mem_cons_of_mem _ hm)⟩
      have := hnd.1
      simp only [List.map_cons, List.nodup_cons] at this
      exact this.2
    have hresnone : mapGet sec res = none := hres (sec, params) (by simp)
    have hgsres : getSection res sec = [] := by
      unfold getSection
      rw [hresnone]
      rfl
    rw [show diffSections second ((sec, params) :: rest) res
        = diffSections second rest (diffKeys second sec params
            (if (mapGet sec second).isSome = true then res
             else mapSet res sec (copyParams params)) false) from rfl]
    set res1 := if (mapGet sec second).isSome = true then res
                else mapSet res sec (copyParams params) with hres1
    set resK := diffKeys second sec params res1 false with hresKdef
    have hKres : ∀ {s0}, s0 ≠ sec → mapGet s0 resK = mapGet s0 res := by
      intro s0 hs0
      rw [hresKdef, diffKeys_other second sec params res1 false hs0, hres1]
      by_cases hsecond : (mapGet sec second).isSome = true
      · rw [if_pos hsecond]
      · rw [if_neg hsecond, mapGet_mapSet_ne _ _ hs0]
    have hsec_facts :
        (∀ k, lookup2 resK sec k
            = match mapGet k params with
              | some v => if diffMismatch second sec k v then some v else none
              | none => none) ∧
        (mapGet sec resK).isSome
          = (!(mapGet sec second).isSome ||
              params.any fun kv => diffMismatch second sec kv.1 kv.2) := by
      by_cases hsecond : (mapGet sec second).isSome = true
      · have hres1eq : res1 = res := by rw [hres1, if_pos hsecond]
        by_cases hany : (params.any fun kv => diffMismatch second sec kv.1 kv.2) = true
        · obtain ⟨hchar, hpres⟩ :=
            (diffKeys_sec_false second sec params res1 hpnd).1 hany
          refine ⟨fun k => ?_, ?_⟩
          · rw [lookup2]
            rw [show getSection resK sec
                = getSection (diffKeys second sec params res1 false) sec from rfl]
            exact hchar k
          · rw [hsecond, hany]
            simpa using hpres
        · have hanyf : (params.any fun kv => diffMismatch second sec kv.1 kv.2) = false := by
            revert hany
            cases params.any fun kv => diffMismatch second sec kv.1 kv.2 <;> simp
          have hKid : resK = res := by
            rw [hresKdef, (diffKeys_sec_false second sec params res1 hpnd).2 hanyf, hres1eq]
          have hall : ∀ kv ∈ params, diffMismatch second sec kv.1 kv.2 = false := by
            simpa [List.any_eq_false] using hanyf
          refine ⟨fun k => ?_, ?_⟩
          · rw [hKid, lookup2, hgsres]
            cases hv : mapGet k params with
            | none => rfl
            | some v =>
              have hmf : diffMismatch second sec k v = false :=
                hall (k, v) (mapGet_eq_some_mem hv)
              simp [mapGet, hmf]
          · rw [hKid, hresnone, hsecond, hanyf]
            rfl
      · have hsecnone : mapGet sec second = none := by
          revert hsecond
          cases mapGet sec second <;> simp
        have hres1eq : res1 = mapSet res sec params := by
          rw [hres1, if_neg hsecond]
          rfl
        cases params with
        | nil =>
          have hKid : resK = res1 :=
            (diffKeys_sec_false second sec [] res1 hpnd).2 rfl
          refine ⟨fun k => ?_, ?_⟩
          · rw [hKid, hres1eq, lookup2, getSection_mapSet_self]
            rfl
          · rw [hKid, hres1eq, mapGet_mapSet_self, hsecnone]
            rfl
        | cons kv0 ps =>
          have hany : ((kv0 :: ps).any fun kv => diffMismatch second sec kv.1 kv.2) = true := by
            rw [List.any_cons, diffMismatch_of_no_section hsecnone kv0.1 kv0.2]
            rfl
          obtain ⟨hchar, hpres⟩ :=
            (diffKeys_sec_false second sec (kv0 :: ps) res1 hpnd).1 hany
          refine ⟨fun k => ?_, ?_⟩
          · rw [lookup2]
            exact hchar k
          · rw [hsecnone, hany]
            simpa using hpres
    have hresK : ∀ sp ∈ rest, mapGet sp.1 resK = none := by
      intro q hq
      have hqne : q.1 ≠ sec := by
        intro he
        exact hsecrest (he ▸ List.mem_map.mpr ⟨q, hq, rfl⟩)
      rw [hKres hqne]
      exact hres q (List.mem_cons_of_mem _ hq)
    obtain ⟨ihc, ihp⟩ := ih resK hrest hresK
    have hrestsec : mapGet sec rest = none := mapGet_eq_none_of_not_mem hsecrest
    constructor
    · intro s0 k
      rw [ihc s0 k]
      by_cases hs0 : s0 = sec
      · subst hs0
        rw [hrestsec]
        rw [show mapGet s0 ((s0, params) :: rest) = some params by simp [mapGet]]
        exact hsec_facts.1 k
      · rw [show mapGet s0 ((sec, params) :: rest) = mapGet s0 rest by
            simp [mapGet, Ne.symm hs0]]
        cases hr : mapGet s0 rest with
        | some params0 => rfl
        | none => exact lookup2_congr_sec (hKres hs0) k
    · intro s0
      rw [ihp s0]
      by_cases hs0 : s0 = sec
      · subst hs0
        rw [hrestsec]
        rw [show mapGet s0 ((s0, params) :: rest) = some params by simp [mapGet]]
        exact hsec_facts.2
      · rw [show mapGet s0 ((sec, params) :: rest) = mapGet s0 rest by
            simp [mapGet, Ne.symm hs0]]
        cases hr : mapGet s0 rest with
        | some params0 => rfl
        | none => rw [hKres hs0]

theorem diffMismatch_iff {second : PoolMap} {sec k v : String} :
    diffMismatch second sec k v = true ↔ lookup2 second sec k ≠ some v := by
  unfold diffMismatch
  cases h : lookup2 second sec k with
  | none => simp
  | some u => simp [bne_iff_ne]

theorem eq_nil_of_mapGet_eq_none {α : Type} {m : List (String × α)}
    (h : ∀ k, mapGet k m = none) : m = [] := by
  cases m with
  | nil => rfl
  | cons kv rest =>
    obtain ⟨k, v⟩ := kv
    have := h k
    simp [mapGet] at this

/-- C4: the diff of B relative to A contains exactly the section/key/value
triples of B that are absent from A or present in A with a different value
(compared by exact string equality), and `Compare A B` is the empty map exactly
when every section of B exists in A and every key/value of B exists identically
in A. -/
theorem compare_diff_spec (A B : PoolMap) (hndB : PoolND B) :
    (∀ sec key v, lookup2 (Compare A B) sec key = some v ↔
      (lookup2 B sec key = some v ∧ lookup2 A sec key ≠ some v)) ∧
    ((Compare A B = []) ↔
      (∀ sp ∈ B, (mapGet sp.1 A).isSome = true ∧
        ∀ kv ∈ sp.2, lookup2 A sp.1 kv.1 = some kv.2)) := by
  have hCeq : Compare A B = diffSections A B [] := rfl
  obtain ⟨hc, hp⟩ := diffSections_spec A B [] hndB (fun sp _ => rfl)
  constructor
  · intro sec key v
    rw [hCeq]
    cases hB : mapGet sec B with
    | none =>
      have hlB : lookup2 B sec key = none := by
        rw [lookup2, getSection, hB]
        rfl
      simp only [hc sec key, hB]
      simp [hlB, lookup2_nil]
    | some params =>
      have hgB : getSection B sec = params := getSection_eq hB
      cases hk : mapGet key params with
      | none =>
        have hlB : lookup2 B sec key = none := by
          rw [lookup2, hgB, hk]
        simp only [hc sec key, hB, hk]
        simp [hlB]
      | some w =>
        have hlB : lookup2 B sec key = some w := by
          rw [lookup2, hgB, hk]
        simp only [hc sec key, hB, hk]
        rw [hlB]
        by_cases hm : diffMismatch A sec key w = true
        · rw [if_pos hm]
          constructor
          · intro he
            obtain rfl : w = v := by injection he
            exact ⟨rfl, diffMismatch_iff.mp hm⟩
          · intro hh
            exact hh.1
        · rw [if_neg hm]
          have hmn : lookup2 A sec key = some w := by
            by_contra hcon
            exact hm (diffMismatch_iff.mpr hcon)
          constructor
          · intro he
            simp at he
          · intro hh
            obtain rfl : w = v := by injection hh.1
            exact absurd hmn hh.2
  · rw [hCeq]
    constructor
    · intro hnil sp hsp
      have hBsp : mapGet sp.1 B = some sp.2 := mem_mapGet_nodup hndB.1 hsp
      have hpres := hp sp.1
      rw [hnil] at hpres
      simp only [hBsp] at hpres
      have hfalse : (!(mapGet sp.1 A).isSome ||
          sp.2.any fun kv => diffMismatch A sp.1 kv.1 kv.2) = false := by
        rw [← hpres]
        rfl
      rw [Bool.or_eq_false_iff] at hfalse
      obtain ⟨hA1, hA2⟩ := hfalse
      refine ⟨by
        revert hA1
        cases (mapGet sp.1 A).isSome <;> simp, ?_⟩
      intro kv hkv
      have hmf : diffMismatch A sp.1 kv.1 kv.2 = false := by
        have := List.any_eq_false.mp hA2 kv hkv
        revert this
        cases diffMismatch A sp.1 kv.1 kv.2 <;> simp
      by_contra hcon
      rw [diffMismatch_iff.mpr hcon] at hmf
      exact Bool.true_eq_false ▸ hmf
    · intro hcond
      refine eq_nil_of_mapGet_eq_none fun s0 => ?_
      have hpres := hp s0
      cases hB0 : mapGet s0 B with
      | none =>
        simp only [hB0] at hpres
        revert hpres
        cases hr : mapGet s0 (diffSections A B []) <;> simp [mapGet]
      | some params =>
        obtain ⟨hA1, hA2⟩ := hcond (s0, params) (mapGet_eq_some_mem hB0)
        have hanyf : (params.any fun kv => diffMismatch A s0 kv.1 kv.2) = false := by
          rw [List.any_eq_false]
          intro kv hkv
          have hsome : lookup2 A s0 kv.1 = some kv.2 := hA2 kv hkv
          intro habs
          exact diffMismatch_iff.mp habs hsome
        simp only [hB0] at hpres
        rw [hA1, hanyf] at hpres
        revert hpres
        cases hr : mapGet s0 (diffSections A B []) <;> simp

/-- Witness for C4: a pool compared against itself has an empty diff. -/
theorem compare_diff_spec_witness :
    Compare [("s", [("k", "v")])] [("s", [("k", "v")])] = [] :=
  (compare_diff_spec [("s", [("k", "v")])] [("s", [("k", "v")])]
    (by decide)).2.mpr (by decide)

/-! ### MustPrettyPrint: sorting order and determinism -/

theorem charListLe_total : ∀ as bs : List Char,
    charListLe as bs = true ∨ charListLe bs as = true := by
  intro as
  induction as with
  | nil =>
    intro bs
    left
    rfl
  | cons a as ih =>
    intro bs
    cases bs with
    | nil =>
      right
      rfl
    | cons b bs =>
      by_cases hab : a < b
      · left
        simp [charListLe, hab]
      · by_cases hba : b < a
        · right
          simp [charListLe, hba]
        · rcases ih bs with h | h
          · left
            simp [charListLe, hab, hba, h]
          · right
            simp [charListLe, hab, hba, h]

theorem charListLe_trans : ∀ as bs cs : List Char,
    charListLe as bs = true → charListLe bs cs = true → charListLe as cs = true := by
  intro as
  induction as with
  | nil =>
    intro bs cs _ _
    rfl
  | cons a as ih =>
    intro bs cs h1 h2
    cases bs with
    | nil => simp [charListLe] at h1
    | cons b bs =>
      cases cs with
      | nil => simp [charListLe] at h2
      | cons c cs =>
        simp only [charListLe] at h1 h2 ⊢
        by_cases hab : a < b
        · by_cases hbc : b < c
          · simp [lt_trans hab hbc]
          · by_cases hcb : c < b
            · rw [if_neg hbc, if_pos hcb] at h2
              simp at h2
            · have hbc2 : b = c := le_antisymm (not_lt.mp hcb) (not_lt.mp hbc)
              subst hbc2
              simp [hab]
        · by_cases hba : b < a
          · rw [if_neg hab, if_pos hba] at h1
            simp at h1
          · have hab2 : a = b := le_antisymm (not_lt.mp hba) (not_lt.mp hab)
            subst hab2
            rw [if_neg hab, if_neg hba] at h1
            by_cases hac : a < c
            · simp [hac]
            · by_cases hca : c < a
              · rw [if_neg hac, if_pos hca] at h2
                simp at h2
              · rw [if_neg hac, if_neg hca] at h2 ⊢
                exact ih bs cs h1 h2

theorem charListLe_antisymm : ∀ as bs : List Char,
    charListLe as bs = true → charListLe bs as = true → as = bs := by
  intro as
  induction as with
  | nil =>
    intro bs h1 h2
    cases bs with
    | nil => rfl
    | cons b bs => simp [charListLe] at h2
  | cons a as ih =>
    intro bs h1 h2
    cases bs with
    | nil => simp [charListLe] at h1
    | cons b bs =>
      simp only [charListLe] at h1 h2
      by_cases hab : a < b
      · rw [if_neg (asymm hab), if_pos hab] at h2
        simp at h2
      · by_cases hba : b < a
        · rw [if_neg hab, if_pos hba] at h1
          simp at h1
        · have hab2 : a = b := le_antisymm (not_lt.mp hba) (not_lt.mp hab)
          subst hab2
          rw [if_neg hab, if_neg hba] at h1 h2
          rw [ih bs h1 h2]

instance : IsTotal String strRel :=
  ⟨fun a b => charListLe_total a.data b.data⟩

instance : IsTrans String strRel :=
  ⟨fun a b c => charListLe_trans a.data b.data c.data⟩

instance : IsAntisymm String strRel :=
  ⟨fun a b h1 h2 => by
    have hd := charListLe_antisymm a.data b.data h1 h2
    cases a
    cases b
    exact congrArg String.mk hd⟩

/-- Two duplicate-free string lists with the same members sort identically. -/
theorem insertionSort_eq_of_mem {l1 l2 : List String}
    (h1 : l1.Nodup) (h2 : l2.Nodup) (hm : ∀ s, s ∈ l1 ↔ s ∈ l2) :
    List.insertionSort strRel l1 = List.insertionSort strRel l2 := by
  have hp : List.Perm l1 l2 := (List.perm_ext_iff_of_nodup h1 h2).mpr hm
  exact List.eq_of_perm_of_sorted
    (((List.perm_insertionSort strRel l1).trans hp).trans
      (List.perm_insertionSort strRel l2).symm)
    (List.sorted_insertionSort strRel l1) (List.sorted_insertionSort strRel l2)

/-- Rendering one section only depends on the section content as a map. -/
theorem renderSection_congr (pool pool2 : PoolMap) (indent : String)
    (sec : String)
    (hval : ∀ key, lookup2 pool sec key = lookup2 pool2 sec key)
    (hnd1 : ParamsND (getSection pool sec))
    (hnd2 : ParamsND (getSection pool2 sec)) :
    ∀ out, renderSection pool indent out sec = renderSection pool2 indent out sec := by
  intro out
  simp only [renderSection]
  have hmem : ∀ k, k ∈ (getSection pool sec).map Prod.fst ↔
      k ∈ (getSection pool2 sec).map Prod.fst := by
    intro k
    rw [← mapGet_isSome_iff, ← mapGet_isSome_iff]
    have := hval k
    unfold lookup2 at this
    rw [this]
  rw [insertionSort_eq_of_mem hnd1 hnd2 hmem]
  refine List.foldl_ext _ _ _ ?_
  intro acc key _
  have := hval key
  unfold lookup2 at this
  rw [this]

/-- C7: `MustPrettyPrint` renders deterministically — its output depends only
on the pool viewed as a map (any two duplicate-free pools with the same
sections and the same values render the same string, independent of storage
order) — and concretely the pool `{"Section one": {"Field one": "Value one"}}`
with indent two spaces prints exactly `[Section one]\n  Field one: Value one`,
while the empty pool prints the empty string. -/
theorem mustPrettyPrint_spec :
    (∀ pool pool2 indent,
      (pool.map Prod.fst).Nodup → (pool2.map Prod.fst).Nodup →
      (∀ sp ∈ pool, ParamsND sp.2) → (∀ sp ∈ pool2, ParamsND sp.2) →
      (∀ sec, (mapGet sec pool).isSome = (mapGet sec pool2).isSome) →
      (∀ sec key, lookup2 pool sec key = lookup2 pool2 sec key) →
      MustPrettyPrint pool indent = MustPrettyPrint pool2 indent) ∧
    MustPrettyPrint [("Section one", [("Field one", "Value one")])] "  "
      = "[Section one]\n  Field one: Value one" ∧
    (∀ indent, MustPrettyPrint [] indent = "") := by
  refine ⟨?_, by decide, fun indent => rfl⟩
  intro pool pool2 indent hnd1 hnd2 hsnd1 hsnd2 hsec hval
  simp only [MustPrettyPrint]
  have hgs1 : ∀ sec, ParamsND (getSection pool sec) := by
    intro sec
    unfold getSection
    cases hg : mapGet sec pool with
    | none => exact List.nodup_nil
    | some ps => exact hsnd1 (sec, ps) (mapGet_eq_some_mem hg)
  have hgs2 : ∀ sec, ParamsND (getSection pool2 sec) := by
    intro sec
    unfold getSection
    cases hg : mapGet sec pool2 with
    | none => exact List.nodup_nil
    | some ps => exact hsnd2 (sec, ps) (mapGet_eq_some_mem hg)
  have hmem : ∀ s, s ∈ pool.map Prod.fst ↔ s ∈ pool2.map Prod.fst := by
    intro s
    rw [← mapGet_isSome_iff, ← mapGet_isSome_iff, hsec s]
  rw [insertionSort_eq_of_mem hnd1 hnd2 hmem]
  congr 1
  refine List.foldl_ext _ _ _ ?_
  intro out sec _
  exact renderSection_congr pool pool2 indent sec (fun key => hval sec key)
    (hgs1 sec) (hgs2 sec) out

/-- Witness for C7's determinism part: the same two-section pool stored in the
two possible orders renders identically. -/
theorem mustPrettyPrint_spec_witness :
    MustPrettyPrint [("a", [("k", "1")]), ("b", [("j", "2")])] "  "
      = MustPrettyPrint [("b", [("j", "2")]), ("a", [("k", "1")])] "  " :=
  mustPrettyPrint_spec.1 [("a", [("k", "1")]), ("b", [("j", "2")])]
    [("b", [("j", "2")]), ("a", [("k", "1")])] "  "
    (by decide) (by decide) (by decide) (by decide)
    (by
      intro sec
      by_cases ha : sec = "a"
      · subst ha
        decide
      · by_cases hb : sec = "b"
        · subst hb
          decide
        · simp [mapGet, Ne.symm ha, Ne.symm hb])
    (by
      intro sec key
      by_cases ha : sec = "a"
      · subst ha
        simp [lookup2, getSection, mapGet]
      · by_cases hb : sec = "b"
        · subst hb
          simp [lookup2, getSection, mapGet, Ne.symm ha]
        · simp [lookup2, getSection, mapGet, Ne.symm ha, Ne.symm hb])

end Configurama
